import Mathlib

/-!
Shallow embedding of the `desimodel` focal-plane and footprint modules
(`py/desimodel/focalplane.py`, `py/desimodel/footprint.py`), together with
theorems settling the specification claims about them.

Numbers that the Python code handles as IEEE doubles are modelled as exact
rationals (for the purely discrete catalog logic) or as real numbers (for the
trigonometric geometry).  Fallible operations are modelled with `Except`; the
unbounded Newton-Raphson `while` loop of `plate_angle` is modelled by a
fuel-indexed iteration, and the function's input/output behaviour by the
relation `PlateAngle` (the loop returns `t` for some amount of fuel).
-/

namespace Desimodel

/-! ## Tile catalog records (footprint.py)

A tile row carries `TILEID`, `RA`, `DEC`; identity is the integer tileid. -/

structure Tile where
  tileid : Int
  ra : ℚ
  dec : ℚ
deriving Repr, DecidableEq

/-- Errors surfaced by the modelled operations, following the spec taxonomy.
`tileNotFound` carries the tile IDs that the Python `ValueError` message
formats (the code formats the full requested list). -/
inductive FPError where
  | invalidCoordinate
  | unimplemented
  | tileNotFound (ids : List Int)
  | shapeMismatch
deriving Repr, DecidableEq

/-! ## tileids2pix (footprint.py lines 65-76)

The Python code computes `ii = np.in1d(tiles['TILEID'], tileids)`, and when
`np.count_nonzero(ii) > 0` delegates to `tiles2pix(nside, tiles[ii], ...)`,
otherwise raises `ValueError('TILEID(s) {} not in DESI footprint'.format(tileids))`.
`tiles2pix` itself is thin glue over the external healpy pixelization
primitive; the model returns the tile subset handed to it as the delegation
payload. -/

def selectedTiles (tiles : List Tile) (tileids : List Int) : List Tile :=
  tiles.filter (fun t => t.tileid ∈ tileids)

def tileids2pix (tiles : List Tile) (tileids : List Int) :
    Except FPError (List Tile) :=
  if (selectedTiles tiles tileids).length > 0 then
    .ok (selectedTiles tiles tileids)
  else
    .error (.tileNotFound tileids)

/-! ## get_tile_radec (footprint.py lines 240-251)

`if tileid in tiles['TILEID']: i = np.where(tiles['TILEID'] == tileid)[0][0];
return tiles[i]['RA'], tiles[i]['DEC'] else: return (0.0, 0.0)` -/

def get_tile_radec (tiles : List Tile) (tileid : Int) : ℚ × ℚ :=
  match tiles.find? (fun t => t.tileid == tileid) with
  | some t => (t.ra, t.dec)
  | none => (0, 0)

/-! ## radec2pos (focalplane.py lines 348-361): `raise NotImplementedError` -/

def radec2pos (_ra _dec : ℚ) : Except FPError (List Int) :=
  .error .unimplemented

/-! ## The plate-scale model (focalplane.py lines 181-226)

`plate_dist` evaluates the fixed cubic by the Horner loop
`radius = theta*radius + p[i]` over `p = [8.297E5, -1750.0, 1.394E4, 0.0]`;
`plate_angle` inverts it with the Newton-Raphson `while` loop. -/

noncomputable section

def plateCoeffs : List ℝ := [8.297e5, -1750.0, 1.394e4, 0.0]

def plate_dist (theta : ℝ) : ℝ :=
  plateCoeffs.foldl (fun radius p => theta * radius + p) 0.0

/-- The forward-difference derivative used inside `plate_angle`:
`(plate_dist(guess+1e-5) - plate_dist(guess)) / 1e-5`. -/
def newton_derivative (g : ℝ) : ℝ :=
  (plate_dist (g + 1e-5) - plate_dist g) / 1e-5

/-- One body execution of the `while` loop of `plate_angle`:
`delta_guess = -dist_guess/derivative; angle_guess += delta_guess`. -/
def newton_next (radius g : ℝ) : ℝ :=
  g + -(plate_dist g - radius) / newton_derivative g

/-- The `while np.any(np.fabs(dist_guess) > 1E-8)` loop of `plate_angle`,
with explicit fuel: the test sits at the head of the loop, so a guess whose
residual is already within `1e-8` is returned unchanged. -/
def plateAngleFuel : ℕ → ℝ → ℝ → Option ℝ
  | 0, _, _ => none
  | n + 1, g, radius =>
      if |plate_dist g - radius| ≤ 1e-8 then some g
      else plateAngleFuel n (newton_next radius g) radius

/-- Input/output relation of `plate_angle`: starting from
`angle_guess = 0.0 * radius`, the loop terminates and returns `t`. -/
def PlateAngle (radius t : ℝ) : Prop :=
  ∃ n, plateAngleFuel n (0.0 * radius) radius = some t

/-! ## Coordinate validation (focalplane.py lines 160-166)

`_check_radec` raises ValueError when `np.any((ra < 0) | (ra >= 360))` or
`np.any((dec < -90) | (dec > +90))`.  The scalar and the elementwise array
forms are both modelled. -/

open Classical in
def check_radec (ra dec : ℝ) : Except FPError Unit :=
  if ra < 0 ∨ 360 ≤ ra then .error .invalidCoordinate
  else if dec < -90 ∨ 90 < dec then .error .invalidCoordinate
  else .ok ()

open Classical in
def check_radec_array (l : List (ℝ × ℝ)) : Except FPError Unit :=
  if ∃ p ∈ l, p.1 < 0 ∨ 360 ≤ p.1 then .error .invalidCoordinate
  else if ∃ p ∈ l, p.2 < -90 ∨ 90 < p.2 then .error .invalidCoordinate
  else .ok ()

/-- Telescope pointing state held by a `FocalPlane` instance. -/
structure FocalPlane where
  ra : ℝ
  dec : ℝ

/-- Constructor path: `__init__` validates `(ra, dec)` before storing the
pointing (the fiberpos reference table it also loads is external I/O). -/
def FocalPlane.init (ra dec : ℝ) : Except FPError FocalPlane :=
  match check_radec ra dec with
  | .error e => .error e
  | .ok _ => .ok ⟨ra, dec⟩

/-- Model of `set_tele_pointing`: validates, then replaces the pointing
wholesale. -/
def set_tele_pointing (_fp : FocalPlane) (ra dec : ℝ) :
    Except FPError FocalPlane :=
  match check_radec ra dec with
  | .error e => .error e
  | .ok _ => .ok ⟨ra, dec⟩

/-! ## radec2xy (focalplane.py lines 228-282)

Literal transcription of the rotation pipeline; `theta` is the planar
magnitude of the rotated unit vector (the sine of the angular separation),
and the `1e-12` epsilon added to `sintheta` keeps the azimuthal factors
finite at pole pointings. -/

def radec2xy (tele_ra tele_dec ra dec : ℝ) : ℝ × ℝ :=
  let object_theta := (90.0 - dec) * Real.pi / 180.0
  let object_phi := ra * Real.pi / 180.0
  let o_hat0 := Real.sin object_theta * Real.cos object_phi
  let o_hat1 := Real.sin object_theta * Real.sin object_phi
  let o_hat2 := Real.cos object_theta
  let tile_theta := (90.0 - tele_dec) * Real.pi / 180.0
  let tile_phi := tele_ra * Real.pi / 180.0
  let t_hat0 := Real.sin tile_theta * Real.cos tile_phi
  let t_hat1 := Real.sin tile_theta * Real.sin tile_phi
  let t_hat2 := Real.cos tile_theta
  let costheta := t_hat2
  let sintheta := Real.sqrt (1.0 - costheta * costheta) + 1e-12
  let cosphi := t_hat0 / sintheta
  let sinphi := t_hat1 / sintheta
  let n_hat0 := sinphi * o_hat0 - cosphi * o_hat1
  let n_hat1 := cosphi * o_hat0 + sinphi * o_hat1
  let n_hat2 := o_hat2
  let nn_hat0 := n_hat0
  let nn_hat1 := costheta * n_hat1 - sintheta * n_hat2
  let theta := Real.sqrt (nn_hat0 * nn_hat0 + nn_hat1 * nn_hat1)
  let radius := plate_dist theta
  (radius * nn_hat0 / theta, radius * nn_hat1 / theta)

/-- Validated entry point: `radec2xy` calls `self._check_radec(ra, dec)`
before any computation. -/
def radec2xyChecked (fp : FocalPlane) (ra dec : ℝ) :
    Except FPError (ℝ × ℝ) :=
  match check_radec ra dec with
  | .error e => .error e
  | .ok _ => .ok (radec2xy fp.ra fp.dec ra dec)

/-- Model of `np.arctan2` on reals (the negative-zero float artifact is not
representable: `arctan2 0 0 = 0`). -/
def arctan2 (y x : ℝ) : ℝ :=
  if 0 < x then Real.arctan (y / x)
  else if x < 0 then
    (if 0 ≤ y then Real.arctan (y / x) + Real.pi
     else Real.arctan (y / x) - Real.pi)
  else
    (if 0 < y then Real.pi / 2 else if y < 0 then -(Real.pi / 2) else 0)

/-- Model of `np.remainder a b = a - b * floor (a / b)`. -/
def npRemainder (a b : ℝ) : ℝ := a - b * ⌊a / b⌋

/-! ## xy2radec (focalplane.py lines 284-346)

The pure tail of `xy2radec` once `plate_angle` has produced the recovered
angle `object_theta_in`; the full function is the relation `XY2Radec` below.
Here the pole epsilon is `1e-10`, and the final right ascension is wrapped by
`np.remainder(_, 360)` twice, exactly as in the source. -/

def xy2radecPost (tele_ra tele_dec x y object_theta_in : ℝ) : ℝ × ℝ :=
  let tile_theta := (90.0 - tele_dec) * Real.pi / 180.0
  let tile_phi := tele_ra * Real.pi / 180.0
  let t_hat0 := Real.sin tile_theta * Real.cos tile_phi
  let t_hat1 := Real.sin tile_theta * Real.sin tile_phi
  let t_hat2 := Real.cos tile_theta
  let costheta := t_hat2
  let sintheta := Real.sqrt (1.0 - costheta * costheta) + 1e-10
  let cosphi := t_hat0 / sintheta
  let sinphi := t_hat1 / sintheta
  let object_phi := arctan2 y x
  let o_hat0 := Real.sin object_theta_in * Real.cos object_phi
  let o_hat1 := Real.sin object_theta_in * Real.sin object_phi
  let o_hat2 := Real.cos object_theta_in
  let n_hat0 := o_hat0
  let n_hat1 := costheta * o_hat1 + sintheta * o_hat2
  let n_hat2 := -sintheta * o_hat1 + costheta * o_hat2
  let nn_hat0 := sinphi * n_hat0 + cosphi * n_hat1
  let nn_hat1 := -cosphi * n_hat0 + sinphi * n_hat1
  let nn_hat2 := n_hat2
  let object_theta := Real.arccos nn_hat2
  let object_phi2 := arctan2 nn_hat1 nn_hat0
  let object_dec := 90.0 - (180.0 / Real.pi) * object_theta
  let object_ra := npRemainder (object_phi2 * 180.0 / Real.pi) 360.0
  let object_ra2 := npRemainder object_ra 360.0
  (object_ra2, object_dec)

/-- Input/output relation of `xy2radec`: `plate_angle(hypot(x,y))` terminates
with recovered angle `t` and the rotation tail produces `out`. -/
def XY2Radec (tele_ra tele_dec x y : ℝ) (out : ℝ × ℝ) : Prop :=
  ∃ t, PlateAngle (Real.sqrt (x * x + y * y)) t ∧
    out = xy2radecPost tele_ra tele_dec x y t

/-! ## Spherical embedding and spatial queries (footprint.py lines 131-235) -/

/-- Model of `_embed_sphere`: unit-sphere embedding of `(ra, dec)` in
degrees. -/
def embedSphere (ra dec : ℝ) : ℝ × ℝ × ℝ :=
  let phi := ra * Real.pi / 180.0
  let theta := (90.0 - dec) * Real.pi / 180.0
  let r := Real.sin theta
  (r * Real.cos phi, r * Real.sin phi, Real.cos theta)

/-- Euclidean (chord) distance between embedded points. -/
def chord (p q : ℝ × ℝ × ℝ) : ℝ :=
  Real.sqrt ((p.1 - q.1) ^ 2 + (p.2.1 - q.2.1) ^ 2 + (p.2.2 - q.2.2) ^ 2)

/-- The `2.0 * np.sin(np.radians(radius) * 0.5)` chord threshold. -/
def chordThreshold (radius : ℝ) : ℝ :=
  2.0 * Real.sin (radius * Real.pi / 180.0 * 0.5)

/-- Distance to the nearest of a nonempty list of centers: the `d` returned
by `tree.query(xyz, k=1)` on a cKDTree built over `centers`. -/
def nearestDist (x : ℝ × ℝ × ℝ) : List (ℝ × ℝ × ℝ) → ℝ
  | [] => 0
  | c :: cs => cs.foldl (fun d c2 => min d (chord x c2)) (chord x c)

open Classical in
/-- Model of `tree.query_ball_point x r`: the indices of the data points within
distance `r` of `x` (boundary included). -/
def queryBallPoint (data : List (ℝ × ℝ × ℝ)) (x : ℝ × ℝ × ℝ) (r : ℝ) :
    List ℕ :=
  (List.range data.length).filter fun k => chord (data.getD k default) x ≤ r

/-- Model of `is_point_in_desi` for a single query point: the nearest embedded tile
center lies strictly closer than the chord threshold. -/
def is_point_in_desi (tiles : List (ℝ × ℝ)) (ra dec radius : ℝ) : Prop :=
  nearestDist (embedSphere ra dec) (tiles.map fun t => embedSphere t.1 t.2) <
    chordThreshold radius

/-- Model of `find_tiles_over_point`: per query point, all tile indices within the
chord threshold (tree built over tile centers). -/
def find_tiles_over_point (tiles : List (ℝ × ℝ)) (ra dec : List ℝ)
    (radius : ℝ) : List (List ℕ) :=
  let tilecenters := tiles.map fun t => embedSphere t.1 t.2
  (List.zip ra dec).map fun p =>
    queryBallPoint tilecenters (embedSphere p.1 p.2) (chordThreshold radius)

/-- Core of `find_points_in_tiles` (after the shape assertions): per tile,
all point indices within the chord threshold (tree built over the points). -/
def find_points_in_tiles (tiles : List (ℝ × ℝ)) (ra dec : List ℝ)
    (radius : ℝ) : List (List ℕ) :=
  let points := (List.zip ra dec).map fun p => embedSphere p.1 p.2
  tiles.map fun t =>
    queryBallPoint points (embedSphere t.1 t.2) (chordThreshold radius)

/-! ## Input rank checking of find_points_in_tiles (footprint.py lines 225-226)

`assert ra.ndim == 1` and `assert dec.ndim == 1` reject scalar or
higher-rank input before the query runs. -/

/-- A numpy argument of rank 0, 1 or 2 as the spatial queries see it. -/
inductive NDArr where
  | scalar (x : ℝ)
  | vec (v : List ℝ)
  | mat (m : List (List ℝ))

def NDArr.ndim : NDArr → ℕ
  | .scalar _ => 0
  | .vec _ => 1
  | .mat _ => 2

/-- Model of `find_points_in_tiles` with the rank assertions of the source. -/
def find_points_in_tilesChecked (tiles : List (ℝ × ℝ)) (ra dec : NDArr)
    (radius : ℝ) : Except FPError (List (List ℕ)) :=
  match ra, dec with
  | .vec a, .vec b => .ok (find_points_in_tiles tiles a b radius)
  | _, _ => .error .shapeMismatch

/-! ## generate_random_vector_field (focalplane.py lines 24-75)

The pseudo-random draws of `np.random.RandomState(seed)` are modelled as
explicit inputs: `u` the uniform draws in `[0,1)` (the code multiplies them
by `2*pi` to get phases) and `gdraw` the standard-normal draws, both indexed
by the grid position.  `np.fft.fftfreq` and `np.fft.ifft2` are transcribed
directly. -/

/-- Model of `np.fft.fftfreq n` at index `k` (unit sample spacing). -/
def fftfreq (n : ℕ) (k : Fin n) : ℝ :=
  (if (k : ℕ) < n - n / 2 then ((k : ℕ) : ℝ) else ((k : ℕ) : ℝ) - n) / n

/-- The grid `ksq = kx**2 + ky**2` on the meshgrid (row `r` gives `ky`, column `c`
gives `kx`). -/
def rvfKsq (n : ℕ) (r c : Fin n) : ℝ := fftfreq n c ^ 2 + fftfreq n r ^ 2

open Classical in
/-- The frequency-domain grid `A` after masking, amplitude drawing and
optional smoothing: zero at the zero-frequency cells, otherwise
`ksq**(exponent/2) * gdraw * exp(i*2*pi*u)` times, when `smoothing > 0`,
`exp(-ksq * (n*smoothing)**2/2) / (2*pi)`. -/
def rvfA (exponent smoothing : ℝ) (n : ℕ) (u gdraw : Fin n → Fin n → ℝ)
    (r c : Fin n) : ℂ :=
  if 0 < rvfKsq n r c then
    (((rvfKsq n r c) ^ (exponent / 2) * gdraw r c : ℝ) : ℂ) *
      Complex.exp (Complex.I * (2 * Real.pi * u r c)) *
      (if 0 < smoothing then
        ((Real.exp (-(rvfKsq n r c) * ((n * smoothing) ^ 2 / 2)) /
          (2 * Real.pi) : ℝ) : ℂ)
       else 1)
  else 0

/-- Model of `np.fft.ifft2 A` at position `(a, b)`. -/
def rvfOffsets (exponent smoothing : ℝ) (n : ℕ)
    (u gdraw : Fin n → Fin n → ℝ) (a b : Fin n) : ℂ :=
  (1 / ((n : ℂ) ^ 2)) *
    ∑ r : Fin n, ∑ c : Fin n,
      rvfA exponent smoothing n u gdraw r c *
        Complex.exp (2 * Real.pi * Complex.I *
          (((r : ℕ) : ℂ) * ((a : ℕ) : ℂ) / n + ((c : ℕ) : ℂ) * ((b : ℕ) : ℂ) / n))

/-- The mean `np.average(dr2)` over the flattened pre-rescale field:
mean of `re**2 + im**2`. -/
def rvfMeanSq (exponent smoothing : ℝ) (n : ℕ)
    (u gdraw : Fin n → Fin n → ℝ) : ℝ :=
  (∑ a : Fin n, ∑ b : Fin n,
      Complex.normSq (rvfOffsets exponent smoothing n u gdraw a b)) / (n ^ 2)

/-- The factor `rescale = rms / np.sqrt(np.average(dr2))`. -/
def rvfRescale (rms exponent smoothing : ℝ) (n : ℕ)
    (u gdraw : Fin n → Fin n → ℝ) : ℝ :=
  rms / Real.sqrt (rvfMeanSq exponent smoothing n u gdraw)

/-- The returned `dx` component. -/
def rvfDx (rms exponent smoothing : ℝ) (n : ℕ)
    (u gdraw : Fin n → Fin n → ℝ) (a b : Fin n) : ℝ :=
  (rvfOffsets exponent smoothing n u gdraw a b).re *
    rvfRescale rms exponent smoothing n u gdraw

/-- The returned `dy` component. -/
def rvfDy (rms exponent smoothing : ℝ) (n : ℕ)
    (u gdraw : Fin n → Fin n → ℝ) (a b : Fin n) : ℝ :=
  (rvfOffsets exponent smoothing n u gdraw a b).im *
    rvfRescale rms exponent smoothing n u gdraw

/-- The realized RMS magnitude `sqrt(mean(dx**2 + dy**2))` of the output. -/
def rvfRealizedRMS (rms exponent smoothing : ℝ) (n : ℕ)
    (u gdraw : Fin n → Fin n → ℝ) : ℝ :=
  Real.sqrt ((∑ a : Fin n, ∑ b : Fin n,
      (rvfDx rms exponent smoothing n u gdraw a b ^ 2 +
       rvfDy rms exponent smoothing n u gdraw a b ^ 2)) / (n ^ 2))

end

end Desimodel

namespace Desimodel

/-! ## Theorems for the claims -/

/-- Helper: membership in the selected subset. -/
theorem mem_selectedTiles (tiles : List Tile) (ids : List Int) (t : Tile) :
    t ∈ selectedTiles tiles ids ↔ t ∈ tiles ∧ t.tileid ∈ ids := by
  simp [selectedTiles]

/-- C2 counterexample: with a catalog holding the single tile 1 and the mixed
request `[1, 2]` (tile 2 absent from the catalog), `tileids2pix` does NOT
raise: it returns the resolved subset, contradicting the claim that any batch
containing an absent ID fails with a TileNotFound error. -/
theorem tileids2pix_mixed_batch_no_error :
    tileids2pix [⟨1, 10, 20⟩] [1, 2] = .ok [⟨1, 10, 20⟩] := by
  rfl

/-- C2 amended: `tileids2pix` fails (with an error naming the entire requested
batch) exactly when no requested ID is present in the catalog; as soon as at
least one requested ID resolves, it delegates to `tiles2pix` on the subset of
catalog tiles whose ID was requested, even if other requested IDs are absent. -/
theorem tileids2pix_spec (tiles : List Tile) (ids : List Int) :
    (tileids2pix tiles ids = .error (.tileNotFound ids) ↔
      ∀ t ∈ tiles, t.tileid ∉ ids) ∧
    ((∃ t ∈ tiles, t.tileid ∈ ids) →
      tileids2pix tiles ids = .ok (selectedTiles tiles ids)) := by
  constructor
  · constructor
    · intro h t ht hid
      by_contra
      have hmem : t ∈ selectedTiles tiles ids :=
        (mem_selectedTiles tiles ids t).mpr ⟨ht, hid⟩
      have hpos : (selectedTiles tiles ids).length > 0 :=
        List.length_pos.mpr (fun hnil => by simp [hnil] at hmem)
      simp [tileids2pix, hpos] at h
    · intro h
      have hnil : selectedTiles tiles ids = [] := by
        rw [List.eq_nil_iff_forall_not_mem]
        intro t hmem
        rcases (mem_selectedTiles tiles ids t).mp hmem with ⟨ht, hid⟩
        exact h t ht hid
      simp [tileids2pix, hnil]
  · intro ⟨t, ht, hid⟩
    have hmem : t ∈ selectedTiles tiles ids :=
      (mem_selectedTiles tiles ids t).mpr ⟨ht, hid⟩
    have hpos : (selectedTiles tiles ids).length > 0 :=
      List.length_pos.mpr (fun hnil => by simp [hnil] at hmem)
    simp [tileids2pix, hpos]

/-- Helper: the scalar validity test behind `_check_radec`. -/
theorem check_radec_ok_iff (ra dec : ℝ) :
    check_radec ra dec = .ok () ↔
      0 ≤ ra ∧ ra < 360 ∧ -90 ≤ dec ∧ dec ≤ 90 := by
  unfold check_radec
  split_ifs with h1 h2
  · constructor
    · intro h; simp at h
    · rintro ⟨ha, hb, _, _⟩
      rcases h1 with h | h <;> linarith
  · constructor
    · intro h; simp at h
    · rintro ⟨_, _, hc, hd⟩
      rcases h2 with h | h <;> linarith
  · push_neg at h1 h2
    simp only [true_iff]
    exact ⟨h1.1, h1.2, h2.1, h2.2⟩

/-- Helper: the scalar check rejects exactly the out-of-bounds inputs. -/
theorem check_radec_error_iff (ra dec : ℝ) :
    check_radec ra dec = .error .invalidCoordinate ↔
      ¬(0 ≤ ra ∧ ra < 360 ∧ -90 ≤ dec ∧ dec ≤ 90) := by
  constructor
  · intro h hv
    have := (check_radec_ok_iff ra dec).mpr hv
    rw [this] at h
    simp at h
  · intro hv
    unfold check_radec
    split_ifs with h1 h2
    · rfl
    · rfl
    · push_neg at h1 h2
      exact absurd ⟨h1.1, h1.2, h2.1, h2.2⟩ hv

/-- C3: every ra/dec-taking FocalPlane operation (construction,
`set_tele_pointing`, `radec2xy`) fails with the InvalidCoordinate error, and
produces no state or result, exactly when the input is out of bounds
(`ra < 0`, `ra >= 360`, `dec < -90` or `dec > 90`); the boundary cases behave
as claimed (`ra = 360` and `dec = 90.0001` rejected, `ra = 0`, `dec = -90`,
`dec = 90` accepted); the array-level check fails exactly when some element is
out of bounds. -/
theorem check_radec_spec :
    (∀ (fp : FocalPlane) (ra dec : ℝ),
      ¬(0 ≤ ra ∧ ra < 360 ∧ -90 ≤ dec ∧ dec ≤ 90) →
        FocalPlane.init ra dec = .error .invalidCoordinate ∧
        set_tele_pointing fp ra dec = .error .invalidCoordinate ∧
        radec2xyChecked fp ra dec = .error .invalidCoordinate) ∧
    (∀ (fp : FocalPlane) (ra dec : ℝ),
      0 ≤ ra → ra < 360 → -90 ≤ dec → dec ≤ 90 →
        FocalPlane.init ra dec = .ok ⟨ra, dec⟩ ∧
        set_tele_pointing fp ra dec = .ok ⟨ra, dec⟩ ∧
        radec2xyChecked fp ra dec = .ok (radec2xy fp.ra fp.dec ra dec)) ∧
    check_radec 360 0 = .error .invalidCoordinate ∧
    check_radec 0 90.0001 = .error .invalidCoordinate ∧
    check_radec 0 (-90) = .ok () ∧
    check_radec 0 90 = .ok () ∧
    (∀ l : List (ℝ × ℝ), check_radec_array l = .ok () ↔
      ∀ p ∈ l, 0 ≤ p.1 ∧ p.1 < 360 ∧ -90 ≤ p.2 ∧ p.2 ≤ 90) := by
  refine ⟨?_, ?_, ?_, ?_, ?_, ?_, ?_⟩
  · intro fp ra dec hv
    have h := (check_radec_error_iff ra dec).mpr hv
    exact ⟨by simp [FocalPlane.init, h], by simp [set_tele_pointing, h],
      by simp [radec2xyChecked, h]⟩
  · intro fp ra dec h1 h2 h3 h4
    have h := (check_radec_ok_iff ra dec).mpr ⟨h1, h2, h3, h4⟩
    exact ⟨by simp [FocalPlane.init, h], by simp [set_tele_pointing, h],
      by simp [radec2xyChecked, h]⟩
  · exact (check_radec_error_iff 360 0).mpr (by intro h; linarith [h.2.1])
  · exact (check_radec_error_iff 0 90.0001).mpr
      (by intro h; linarith [h.2.2.2])
  · exact (check_radec_ok_iff 0 (-90)).mpr (by norm_num)
  · exact (check_radec_ok_iff 0 90).mpr (by norm_num)
  · intro l
    unfold check_radec_array
    split_ifs with h1 h2
    · constructor
      · intro h; simp at h
      · intro hall
        obtain ⟨p, hp, hbad⟩ := h1
        have := hall p hp
        rcases hbad with h | h <;> linarith [this.1, this.2.1]
    · constructor
      · intro h; simp at h
      · intro hall
        obtain ⟨p, hp, hbad⟩ := h2
        have := hall p hp
        rcases hbad with h | h <;> linarith [this.2.2.1, this.2.2.2]
    · push_neg at h1 h2
      simp only [true_iff]
      intro p hp
      have a1 := h1 p hp
      have a2 := h2 p hp
      exact ⟨a1.1, a1.2, a2.1, a2.2⟩

/-- C8: `find_points_in_tiles` rejects scalar or rank-2 input (for either
coordinate argument) with the ShapeMismatch error, and proceeds to the range
query exactly when both `ra` and `dec` are one-dimensional. -/
theorem find_points_in_tiles_shape_spec :
    (∀ (tiles : List (ℝ × ℝ)) (ra dec : NDArr) (radius : ℝ),
      find_points_in_tilesChecked tiles ra dec radius =
          .error .shapeMismatch ↔ ¬(ra.ndim = 1 ∧ dec.ndim = 1)) ∧
    (∀ (tiles : List (ℝ × ℝ)) (a b : List ℝ) (radius : ℝ),
      find_points_in_tilesChecked tiles (.vec a) (.vec b) radius =
        .ok (find_points_in_tiles tiles a b radius)) := by
  constructor
  · intro tiles ra dec radius
    cases ra <;> cases dec <;>
      simp [find_points_in_tilesChecked, NDArr.ndim]
  · intro tiles a b radius
    rfl

/-- Helper: the chord distance is symmetric. -/
theorem chord_comm (p q : ℝ × ℝ × ℝ) : chord p q = chord q p := by
  unfold chord
  congr 1
  ring

/-- Helper: the chord distance from a point to itself is zero. -/
theorem chord_self (p : ℝ × ℝ × ℝ) : chord p p = 0 := by
  unfold chord
  simp

/-- Helper: membership in a ball query names an in-range index within the
threshold distance. -/
theorem mem_queryBallPoint (data : List (ℝ × ℝ × ℝ)) (x : ℝ × ℝ × ℝ)
    (r : ℝ) (k : ℕ) :
    k ∈ queryBallPoint data x r ↔
      k < data.length ∧ chord (data.getD k default) x ≤ r := by
  simp [queryBallPoint, List.mem_filter, List.mem_range]

/-- C7: the two range queries are transpose-consistent: point index `j`
appears in the list that `find_points_in_tiles` produces for tile `i` exactly
when tile index `i` appears in the list that `find_tiles_over_point` produces
for point `j` (out-of-range indices appear in neither). -/
theorem find_tiles_points_transpose (tiles : List (ℝ × ℝ)) (ra dec : List ℝ)
    (radius : ℝ) (i j : ℕ) :
    j ∈ (find_points_in_tiles tiles ra dec radius).getD i [] ↔
      i ∈ (find_tiles_over_point tiles ra dec radius).getD j [] := by
  simp only [find_points_in_tiles, find_tiles_over_point]
  rw [List.getD_eq_getElem?_getD, List.getD_eq_getElem?_getD,
    List.getElem?_map, List.getElem?_map]
  cases htl : tiles[i]? with
  | none =>
    have hti : tiles.length ≤ i := List.getElem?_eq_none_iff.mp htl
    simp only [Option.map_none', Option.getD_none, List.not_mem_nil, false_iff]
    cases hzj : (ra.zip dec)[j]? with
    | none => simp
    | some p =>
      simp only [Option.map_some', Option.getD_some]
      rw [mem_queryBallPoint]
      rintro ⟨hlt, -⟩
      rw [List.length_map] at hlt
      omega
  | some t =>
    obtain ⟨hti, -⟩ := List.getElem?_eq_some_iff.mp htl
    simp only [Option.map_some', Option.getD_some]
    rw [mem_queryBallPoint]
    cases hzj : (ra.zip dec)[j]? with
    | none =>
      have hzlen : (ra.zip dec).length ≤ j := List.getElem?_eq_none_iff.mp hzj
      simp only [Option.map_none', Option.getD_none, List.not_mem_nil,
        iff_false]
      rintro ⟨hlt, -⟩
      rw [List.length_map] at hlt
      omega
    | some p =>
      obtain ⟨hzj_lt, -⟩ := List.getElem?_eq_some_iff.mp hzj
      simp only [Option.map_some', Option.getD_some]
      rw [mem_queryBallPoint]
      have hpd : (((ra.zip dec).map fun p => embedSphere p.1 p.2).getD j
          default) = embedSphere p.1 p.2 := by
        rw [List.getD_eq_getElem?_getD, List.getElem?_map, hzj]
        rfl
      have htd : ((tiles.map fun t => embedSphere t.1 t.2).getD i default) =
          embedSphere t.1 t.2 := by
        rw [List.getD_eq_getElem?_getD, List.getElem?_map, htl]
        rfl
      rw [hpd, htd, List.length_map, List.length_map, chord_comm]
      constructor
      · rintro ⟨-, hc⟩
        exact ⟨hti, hc⟩
      · rintro ⟨-, hc⟩
        exact ⟨hzj_lt, hc⟩

/-- Helper: a left fold of minima drops below a bound exactly when the seed
or some mapped element does. -/
theorem foldl_min_lt_iff {α : Type} (f : α → ℝ) (b : ℝ) (l : List α)
    (a : ℝ) :
    l.foldl (fun d c => min d (f c)) a < b ↔ a < b ∨ ∃ c ∈ l, f c < b := by
  induction l generalizing a with
  | nil => simp
  | cons x xs ih =>
    simp only [List.foldl_cons]
    rw [ih]
    simp [min_lt_iff, or_assoc]

/-- Helper: the nearest-center distance of a nonempty list drops below a
bound exactly when some center is within it. -/
theorem nearestDist_lt_iff (x : ℝ × ℝ × ℝ) (b : ℝ) (c : ℝ × ℝ × ℝ)
    (cs : List (ℝ × ℝ × ℝ)) :
    nearestDist x (c :: cs) < b ↔ ∃ c2 ∈ c :: cs, chord x c2 < b := by
  unfold nearestDist
  rw [foldl_min_lt_iff]
  simp

/-- Helper: the chord threshold is positive for radii strictly between 0 and
360 degrees. -/
theorem chordThreshold_pos (radius : ℝ) (h1 : 0 < radius) (h2 : radius < 360) :
    0 < chordThreshold radius := by
  unfold chordThreshold
  have hs : 0 < Real.sin (radius * Real.pi / 180.0 * 0.5) := by
    apply Real.sin_pos_of_pos_of_lt_pi
    · have := Real.pi_pos
      positivity
    · nlinarith [Real.pi_pos, mul_pos (sub_pos.mpr h2) Real.pi_pos]
  linarith

/-- C4 counterexample: with the single tile centered at `(0, 0)` and the
query point placed exactly at that center, the radius `720 > 0` yields a
non-positive chord threshold (`2*sin(360 deg)` is 0 here, and a tiny negative
float in the program), so the strict comparison fails and the point is NOT
reported covered, contradicting the claim that a point at a tile center is
covered for any radius greater than zero. -/
theorem is_point_in_desi_center_radius720_cex :
    (0 : ℝ) < 720 ∧ ¬ is_point_in_desi [((0 : ℝ), (0 : ℝ))] 0 0 720 := by
  refine ⟨by norm_num, ?_⟩
  unfold is_point_in_desi
  have hth : chordThreshold 720 = 0 := by
    unfold chordThreshold
    have : (720 : ℝ) * Real.pi / 180.0 * 0.5 = 2 * Real.pi := by ring
    rw [this, Real.sin_two_pi]
    ring
  have hnd : nearestDist (embedSphere 0 0)
      ([((0 : ℝ), (0 : ℝ))].map fun t => embedSphere t.1 t.2) = 0 := by
    simp only [List.map_cons, List.map_nil]
    unfold nearestDist
    simp [chord_self]
  rw [hth, hnd]
  simp

/-- C4 amended: coverage holds exactly when some tile center is strictly
within the chord threshold of the query point (equivalently, the nearest
center is); a point placed exactly at a tile's center is covered for any
radius strictly between 0 and 360 degrees (the sine of the half-angle is
positive there, but not at radius 720, where the threshold `2*sin(radius/2)`
is no longer positive and the center point is not covered); and a point at
chord distance at least the threshold from every center is not covered. -/
theorem is_point_in_desi_spec (tiles : List (ℝ × ℝ)) (ra dec radius : ℝ)
    (hne : tiles ≠ []) :
    (is_point_in_desi tiles ra dec radius ↔
      ∃ t ∈ tiles, chord (embedSphere ra dec) (embedSphere t.1 t.2) <
        chordThreshold radius) ∧
    (0 < radius → radius < 360 → (ra, dec) ∈ tiles →
      is_point_in_desi tiles ra dec radius) ∧
    ((∀ t ∈ tiles, chordThreshold radius ≤
        chord (embedSphere ra dec) (embedSphere t.1 t.2)) →
      ¬ is_point_in_desi tiles ra dec radius) := by
  obtain ⟨c, cs, rfl⟩ : ∃ c cs, tiles = c :: cs := by
    cases tiles with
    | nil => exact absurd rfl hne
    | cons c cs => exact ⟨c, cs, rfl⟩
  have hiff : is_point_in_desi (c :: cs) ra dec radius ↔
      ∃ t ∈ c :: cs, chord (embedSphere ra dec) (embedSphere t.1 t.2) <
        chordThreshold radius := by
    unfold is_point_in_desi
    rw [List.map_cons, nearestDist_lt_iff]
    constructor
    · rintro ⟨c2, hc2, hlt⟩
      rcases List.mem_cons.mp hc2 with h | h
      · exact ⟨c, List.mem_cons_self c cs, h ▸ hlt⟩
      · obtain ⟨t, ht, rfl⟩ := List.mem_map.mp h
        exact ⟨t, List.mem_cons_of_mem c ht, hlt⟩
    · rintro ⟨t, ht, hlt⟩
      rcases List.mem_cons.mp ht with h | h
      · subst h
        exact ⟨embedSphere t.1 t.2, List.mem_cons_self _ _, hlt⟩
      · exact ⟨embedSphere t.1 t.2,
          List.mem_cons_of_mem _ (List.mem_map.mpr ⟨t, h, rfl⟩), hlt⟩
  refine ⟨hiff, ?_, ?_⟩
  · intro h1 h2 hmem
    refine hiff.mpr ⟨(ra, dec), hmem, ?_⟩
    rw [chord_self]
    exact chordThreshold_pos radius h1 h2
  · intro hall h
    obtain ⟨t, ht, hlt⟩ := hiff.mp h
    exact absurd hlt (not_lt.mpr (hall t ht))

/-- C4 witness instance: the singleton tile at `(0, 0)` covers its own center
for the in-range radius 180. -/
theorem is_point_in_desi_spec_witness :
    is_point_in_desi [((0 : ℝ), (0 : ℝ))] 0 0 180 :=
  (is_point_in_desi_spec [((0 : ℝ), (0 : ℝ))] 0 0 180 (by simp)).2.1
    (by norm_num) (by norm_num) (by simp)

/-- Helper: closed form of the Horner evaluation of `plate_dist`. -/
theorem plate_dist_eq (θ : ℝ) :
    plate_dist θ = ((8.297e5 * θ - 1750) * θ + 1.394e4) * θ := by
  unfold plate_dist plateCoeffs
  norm_num [List.foldl]
  ring

/-- Helper: factorization of a difference of `plate_dist` values; the second
factor is the secant slope of the cubic. -/
theorem plate_dist_sub (a b : ℝ) :
    plate_dist a - plate_dist b =
      (a - b) * (8.297e5 * (a ^ 2 + a * b + b ^ 2) - 1750 * (a + b) +
        1.394e4) := by
  rw [plate_dist_eq, plate_dist_eq]
  ring

/-- Helper: the secant slope of the cubic is globally at least 13938, so
`plate_dist` is strictly increasing with uniformly bounded-below slope. -/
theorem plate_dist_slope_ge (a b : ℝ) :
    13938 ≤ 8.297e5 * (a ^ 2 + a * b + b ^ 2) - 1750 * (a + b) + 1.394e4 := by
  nlinarith [sq_nonneg (a - b), sq_nonneg (a + b - 35 / 24891)]

/-- Helper: whatever value the Newton loop returns satisfies its own exit
condition: the residual in plate-distance units is within `1e-8` mm. -/
theorem plateAngleFuel_residual :
    ∀ (n : ℕ) (g radius t : ℝ), plateAngleFuel n g radius = some t →
      |plate_dist t - radius| ≤ 1e-8 := by
  intro n
  induction n with
  | zero => intro g radius t h; simp [plateAngleFuel] at h
  | succ n ih =>
    intro g radius t h
    unfold plateAngleFuel at h
    split_ifs at h with hc
    · cases h
      exact hc
    · exact ih _ _ _ h

/-- Helper: residual control forces closeness of angles, via the global
slope bound. -/
theorem angle_close_of_residual (θ t : ℝ)
    (h : |plate_dist t - plate_dist θ| ≤ 1e-8) : |t - θ| ≤ 1e-12 := by
  have hQ := plate_dist_slope_ge t θ
  have habs : |plate_dist t - plate_dist θ| =
      |t - θ| * (8.297e5 * (t ^ 2 + t * θ + θ ^ 2) - 1750 * (t + θ) +
        1.394e4) := by
    rw [plate_dist_sub, abs_mul]
    congr 1
    exact abs_of_nonneg (by linarith)
  rw [habs] at h
  nlinarith [abs_nonneg (t - θ)]

/-- Helper: the forward-difference derivative used by the loop equals the
secant slope of the cubic over `[g, g + 1e-5]`. -/
theorem newton_derivative_eq (g : ℝ) :
    newton_derivative g =
      8.297e5 * ((g + 1e-5) ^ 2 + (g + 1e-5) * g + g ^ 2) -
        1750 * ((g + 1e-5) + g) + 1.394e4 := by
  unfold newton_derivative
  rw [plate_dist_eq, plate_dist_eq, div_eq_iff (by norm_num : (1e-5 : ℝ) ≠ 0)]
  ring

/-- Helper: bounds on the loop derivative over the iteration box
`-1/100 <= g <= 1/25`. -/
theorem newton_derivative_bounds (g : ℝ) (hlo : -(1 / 100) ≤ g)
    (hhi : g ≤ 1 / 25) :
    13799 ≤ newton_derivative g ∧ newton_derivative g ≤ 17978 := by
  rw [newton_derivative_eq]
  constructor
  · nlinarith [sq_nonneg g, sq_nonneg (g + 1e-5)]
  · nlinarith [mul_nonneg (sub_nonneg.mpr hhi)
      (by linarith : (0 : ℝ) ≤ g + 1 / 100)]

/-- Helper: one Newton update from inside the box contracts the error to the
target angle by a factor `6/25`. -/
theorem newton_step_contract (θ g : ℝ) (h0 : 0 ≤ θ) (h1 : θ ≤ 3 / 100)
    (hlo : -(1 / 100) ≤ g) (hhi : g ≤ 1 / 25) :
    |newton_next (plate_dist θ) g - θ| ≤ (6 / 25) * |g - θ| := by
  obtain ⟨hd_lo, hd_hi⟩ := newton_derivative_bounds g hlo hhi
  have hd_pos : 0 < newton_derivative g := by linarith
  have hQ_lo : 13817 ≤ 8.297e5 * (g ^ 2 + g * θ + θ ^ 2) -
      1750 * (g + θ) + 1.394e4 := by
    nlinarith [sq_nonneg g, sq_nonneg θ, sq_nonneg (g + θ)]
  have hQ_hi : 8.297e5 * (g ^ 2 + g * θ + θ ^ 2) - 1750 * (g + θ) +
      1.394e4 ≤ 17028 := by
    nlinarith [mul_nonneg (sub_nonneg.mpr hhi)
      (by linarith : (0 : ℝ) ≤ g + 1 / 100),
      mul_nonneg (sub_nonneg.mpr h1) h0,
      mul_nonneg (mul_nonneg (sub_nonneg.mpr hhi) h0)
        (sub_nonneg.mpr h1)]
  have hrepr : newton_next (plate_dist θ) g - θ =
      (g - θ) * (1 - (8.297e5 * (g ^ 2 + g * θ + θ ^ 2) -
        1750 * (g + θ) + 1.394e4) / newton_derivative g) := by
    unfold newton_next
    have hsub := plate_dist_sub g θ
    field_simp
    nlinarith [hsub]
  rw [hrepr, abs_mul]
  have hfac : |1 - (8.297e5 * (g ^ 2 + g * θ + θ ^ 2) -
      1750 * (g + θ) + 1.394e4) / newton_derivative g| ≤ 6 / 25 := by
    rw [abs_le]
    constructor
    · have : (8.297e5 * (g ^ 2 + g * θ + θ ^ 2) - 1750 * (g + θ) +
          1.394e4) / newton_derivative g ≤ 31 / 25 := by
        rw [div_le_iff₀ hd_pos]
        nlinarith
      linarith
    · have : 19 / 25 ≤ (8.297e5 * (g ^ 2 + g * θ + θ ^ 2) -
          1750 * (g + θ) + 1.394e4) / newton_derivative g := by
        rw [le_div_iff₀ hd_pos]
        nlinarith
      linarith
  calc |g - θ| * |1 - (8.297e5 * (g ^ 2 + g * θ + θ ^ 2) -
        1750 * (g + θ) + 1.394e4) / newton_derivative g|
      ≤ |g - θ| * (6 / 25) := by
        exact mul_le_mul_of_nonneg_left hfac (abs_nonneg _)
    _ = (6 / 25) * |g - θ| := by ring

/-- Helper: the Newton trajectory started at 0 for target `plate_dist θ`
stays in the box and its error contracts geometrically. -/
theorem newton_iterates_bound (θ : ℝ) (h0 : 0 ≤ θ) (h1 : θ ≤ 3 / 100) :
    ∀ k : ℕ, |(newton_next (plate_dist θ))^[k] 0 - θ| ≤
        (3 / 100) * (6 / 25) ^ k ∧
      -(1 / 100) ≤ (newton_next (plate_dist θ))^[k] 0 ∧
      (newton_next (plate_dist θ))^[k] 0 ≤ 1 / 25 := by
  intro k
  induction k with
  | zero =>
    refine ⟨?_, by norm_num, by norm_num⟩
    simp only [Function.iterate_zero, id_eq, pow_zero, mul_one]
    rw [abs_of_nonpos (by linarith)]
    linarith
  | succ k ih =>
    obtain ⟨he, hlo, hhi⟩ := ih
    have hstep := newton_step_contract θ _ h0 h1 hlo hhi
    rw [Function.iterate_succ_apply']
    have he1 : |newton_next (plate_dist θ)
        ((newton_next (plate_dist θ))^[k] 0) - θ| ≤
        (3 / 100) * (6 / 25) ^ (k + 1) := by
      calc |newton_next (plate_dist θ) ((newton_next (plate_dist θ))^[k] 0) -
            θ|
          ≤ (6 / 25) * |(newton_next (plate_dist θ))^[k] 0 - θ| := hstep
        _ ≤ (6 / 25) * ((3 / 100) * (6 / 25) ^ k) := by
            exact mul_le_mul_of_nonneg_left he (by norm_num)
        _ = (3 / 100) * (6 / 25) ^ (k + 1) := by ring
    have hpow : ((6 : ℝ) / 25) ^ (k + 1) ≤ 6 / 25 := by
      calc ((6 : ℝ) / 25) ^ (k + 1) = (6 / 25) * (6 / 25) ^ k := by ring
        _ ≤ (6 / 25) * 1 := by
            exact mul_le_mul_of_nonneg_left
              (pow_le_one₀ (by norm_num) (by norm_num)) (by norm_num)
        _ = 6 / 25 := by ring
    have habs := abs_le.mp he1
    refine ⟨he1, ?_, ?_⟩
    · have : (3 / 100 : ℝ) * (6 / 25) ^ (k + 1) ≤ 3 / 100 * (6 / 25) := by
        exact mul_le_mul_of_nonneg_left hpow (by norm_num)
      linarith [habs.1]
    · have : (3 / 100 : ℝ) * (6 / 25) ^ (k + 1) ≤ 3 / 100 * (6 / 25) := by
        exact mul_le_mul_of_nonneg_left hpow (by norm_num)
      linarith [habs.2]

/-- Helper: if some iterate within the fuel bound meets the exit condition,
the fueled loop returns a value. -/
theorem plateAngleFuel_total (radius : ℝ) :
    ∀ (N : ℕ) (g : ℝ),
      (∃ k ≤ N, |plate_dist ((newton_next radius)^[k] g) - radius| ≤ 1e-8) →
      ∃ t, plateAngleFuel (N + 1) g radius = some t := by
  intro N
  induction N with
  | zero =>
    rintro g ⟨k, hk, hres⟩
    interval_cases k
    simp only [Function.iterate_zero, id_eq] at hres
    exact ⟨g, by unfold plateAngleFuel; rw [if_pos hres]⟩
  | succ N ih =>
    rintro g ⟨k, hk, hres⟩
    by_cases hg : |plate_dist g - radius| ≤ 1e-8
    · exact ⟨g, by unfold plateAngleFuel; rw [if_pos hg]⟩
    · have hk0 : k ≠ 0 := by
        rintro rfl
        simp only [Function.iterate_zero, id_eq] at hres
        exact hg hres
      obtain ⟨k', rfl⟩ := Nat.exists_eq_succ_of_ne_zero hk0
      have hres' : |plate_dist ((newton_next radius)^[k']
          (newton_next radius g)) - radius| ≤ 1e-8 := by
        rwa [Function.iterate_succ_apply] at hres
      obtain ⟨t, ht⟩ := ih (newton_next radius g) ⟨k', by omega, hres'⟩
      exact ⟨t, by unfold plateAngleFuel; rw [if_neg hg]; exact ht⟩

/-- C5: for every angle in the operating range `[0, 0.03]` rad, the Newton
loop of `plate_angle` applied to `plate_dist θ` terminates (started, as in
the source, from guess `0.0 * radius`), and every value it can return is an
inverse of `plate_dist` up to the stated tolerance: the residual in
plate-distance units is at most `1e-8` mm, which forces the returned angle to
agree with `θ` to within `1e-12` rad. -/
theorem plate_angle_plate_dist_inverse (θ : ℝ) (h0 : 0 ≤ θ)
    (h1 : θ ≤ 3 / 100) :
    (∃ t, PlateAngle (plate_dist θ) t) ∧
    (∀ t, PlateAngle (plate_dist θ) t →
      |plate_dist t - plate_dist θ| ≤ 1e-8 ∧ |t - θ| ≤ 1e-12) := by
  constructor
  · have hres18 : |plate_dist ((newton_next (plate_dist θ))^[18] 0) -
        plate_dist θ| ≤ 1e-8 := by
      obtain ⟨he, hlo, hhi⟩ := newton_iterates_bound θ h0 h1 18
      have hQ_hi : 8.297e5 *
          (((newton_next (plate_dist θ))^[18] 0) ^ 2 +
            ((newton_next (plate_dist θ))^[18] 0) * θ + θ ^ 2) -
          1750 * (((newton_next (plate_dist θ))^[18] 0) + θ) + 1.394e4 ≤
          17028 := by
        nlinarith [mul_nonneg (sub_nonneg.mpr hhi)
          (by linarith : (0 : ℝ) ≤ (newton_next (plate_dist θ))^[18] 0 +
            1 / 100),
          mul_nonneg (sub_nonneg.mpr h1) h0,
          mul_nonneg (mul_nonneg (sub_nonneg.mpr hhi) h0)
            (sub_nonneg.mpr h1)]
      have hQ_lo : 0 ≤ 8.297e5 *
          (((newton_next (plate_dist θ))^[18] 0) ^ 2 +
            ((newton_next (plate_dist θ))^[18] 0) * θ + θ ^ 2) -
          1750 * (((newton_next (plate_dist θ))^[18] 0) + θ) + 1.394e4 := by
        linarith [plate_dist_slope_ge ((newton_next (plate_dist θ))^[18] 0) θ]
      have habs : |plate_dist ((newton_next (plate_dist θ))^[18] 0) -
          plate_dist θ| = |(newton_next (plate_dist θ))^[18] 0 - θ| *
          (8.297e5 * (((newton_next (plate_dist θ))^[18] 0) ^ 2 +
            ((newton_next (plate_dist θ))^[18] 0) * θ + θ ^ 2) -
          1750 * (((newton_next (plate_dist θ))^[18] 0) + θ) + 1.394e4) := by
        rw [plate_dist_sub, abs_mul, abs_of_nonneg hQ_lo]
      rw [habs]
      calc |(newton_next (plate_dist θ))^[18] 0 - θ| *
            (8.297e5 * (((newton_next (plate_dist θ))^[18] 0) ^ 2 +
              ((newton_next (plate_dist θ))^[18] 0) * θ + θ ^ 2) -
            1750 * (((newton_next (plate_dist θ))^[18] 0) + θ) + 1.394e4)
          ≤ ((3 / 100) * (6 / 25) ^ 18) * 17028 := by
            exact mul_le_mul he hQ_hi hQ_lo (by positivity)
        _ ≤ 1e-8 := by norm_num
    obtain ⟨t, ht⟩ := plateAngleFuel_total (plate_dist θ) 18 0 ⟨18, le_refl _,
      hres18⟩
    exact ⟨t, 19, by rw [show (0.0 : ℝ) * plate_dist θ = 0 by ring]; exact ht⟩
  · rintro t ⟨n, hn⟩
    have hres := plateAngleFuel_residual n _ _ t hn
    exact ⟨hres, angle_close_of_residual θ t hres⟩

/-- C5 witness instance: at `θ = 0` the loop exits immediately with `t = 0`,
which satisfies both tolerance bounds. -/
theorem plate_angle_plate_dist_inverse_witness :
    (∃ t, PlateAngle (plate_dist 0) t) ∧
    (∀ t, PlateAngle (plate_dist 0) t →
      |plate_dist t - plate_dist 0| ≤ 1e-8 ∧ |t - 0| ≤ 1e-12) :=
  plate_angle_plate_dist_inverse 0 (by norm_num) (by norm_num)

/-- Helper: `plate_dist 0 = 0`. -/
theorem plate_dist_zero : plate_dist 0 = 0 := by
  rw [plate_dist_eq]
  norm_num

/-- Helper: exact rational value of `plate_dist 1e-12`, the plate radius that
`radec2xy` produces for an object at a pole pointing. -/
theorem plate_dist_eps_val :
    plate_dist 1e-12 = 1.394e-8 - 1.75e-21 + 8.297e-31 := by
  rw [plate_dist_eq]
  norm_num

/-- Helper: that radius is positive. -/
theorem plate_dist_eps_pos : 0 < plate_dist 1e-12 := by
  rw [plate_dist_eps_val]
  norm_num

/-- Helper: that radius exceeds the Newton exit tolerance, so the loop must
iterate at least once on it. -/
theorem plate_dist_eps_gt_tol : 1e-8 < plate_dist 1e-12 := by
  rw [plate_dist_eps_val]
  norm_num

/-- Helper: exact rational value of the loop derivative at guess 0. -/
theorem newton_derivative_zero : newton_derivative 0 = 13939.98258297 := by
  rw [newton_derivative_eq]
  norm_num

/-- Helper: the first Newton update from guess 0 for the pole radius. -/
theorem newton_next_eps : newton_next (plate_dist 1e-12) 0 =
    plate_dist 1e-12 / newton_derivative 0 := by
  unfold newton_next
  rw [plate_dist_zero]
  ring

/-- Helper: numeric bounds on the first Newton iterate for the pole radius. -/
theorem newton_eps_g1_bounds :
    9e-13 ≤ plate_dist 1e-12 / newton_derivative 0 ∧
    plate_dist 1e-12 / newton_derivative 0 ≤ 1.2e-12 := by
  rw [plate_dist_eps_val, newton_derivative_zero]
  constructor <;> norm_num

/-- Helper: after one Newton update the residual for the pole radius is
already inside the `1e-8` exit tolerance (exact rational arithmetic). -/
theorem newton_eps_final_residual :
    |plate_dist (plate_dist 1e-12 / newton_derivative 0) -
      plate_dist 1e-12| ≤ 1e-8 := by
  rw [plate_dist_eps_val, newton_derivative_zero, plate_dist_eq]
  rw [abs_le]
  constructor <;> norm_num

/-- Helper: the concrete Newton run of `plate_angle` on the pole radius:
one rejected exit test, one update, then exit. -/
theorem plateAngleFuel_eps_run :
    plateAngleFuel 2 (0.0 * plate_dist 1e-12) (plate_dist 1e-12) =
      some (plate_dist 1e-12 / newton_derivative 0) := by
  have hstart : (0.0 : ℝ) * plate_dist 1e-12 = 0 := by ring
  rw [hstart]
  unfold plateAngleFuel
  rw [if_neg (by
    rw [plate_dist_zero, zero_sub, abs_neg, abs_of_pos plate_dist_eps_pos]
    linarith [plate_dist_eps_gt_tol])]
  unfold plateAngleFuel
  rw [newton_next_eps, if_pos newton_eps_final_residual]

/-- Helper: at a pole pointing (`dec = 90`, any `ra`) the forward transform
of the pointing itself collapses: the degenerate rotation produces exactly
`(0, -plate_dist 1e-12)` in millimetres, independently of `ra`. -/
theorem radec2xy_pole (tra ra : ℝ) :
    radec2xy tra 90 ra 90 = (0, -plate_dist 1e-12) := by
  simp only [radec2xy]
  have h90 : ((90.0 : ℝ) - 90) * Real.pi / 180.0 = 0 := by norm_num
  have h11 : (1.0 : ℝ) - 1 = 0 := by norm_num
  simp only [h90, Real.sin_zero, Real.cos_zero, zero_mul, mul_zero,
    mul_one, one_mul, sub_zero, zero_sub, add_zero, zero_add, zero_div,
    h11, Real.sqrt_zero, neg_zero]
  have hsq : Real.sqrt (-(1e-12 : ℝ) * -(1e-12)) = 1e-12 := by
    rw [show (-(1e-12) * -(1e-12) : ℝ) = (1e-12 : ℝ) * 1e-12 by ring,
      Real.sqrt_mul_self (by norm_num)]
  rw [hsq]
  rw [Prod.mk.injEq]
  refine ⟨rfl, ?_⟩
  rw [mul_div_assoc]
  norm_num

/-- Helper: `np.remainder 0 360 = 0`. -/
theorem npRemainder_zero : npRemainder 0 360.0 = 0 := by
  unfold npRemainder
  norm_num

/-- Helper: `arctan2 0 0 = 0` (as in numpy for positive zeros). -/
theorem arctan2_zero_zero : arctan2 0 0 = 0 := by
  unfold arctan2
  norm_num

/-- Helper: `arctan2 y 0 = -pi/2` for negative `y`. -/
theorem arctan2_neg_y_zero_x (y : ℝ) (hy : y < 0) :
    arctan2 y 0 = -(Real.pi / 2) := by
  unfold arctan2
  rw [if_neg (by norm_num), if_neg (by norm_num), if_neg (by linarith),
    if_pos hy]

/-- Helper: the inverse rotation tail at a pole pointing maps the recovered
angle (any value near the true `1e-12`) to exactly `(0, 90)`: the azimuthal
factors vanish, `arccos` clamps its argument `cos t + 1e-10 sin t >= 1` to 0,
and the right ascension collapses to `arctan2 0 0 = 0`. -/
theorem xy2radecPost_pole (tra t : ℝ) (h1 : 9e-13 ≤ t) (h2 : t ≤ 1.2e-12) :
    xy2radecPost tra 90 0 (-(plate_dist 1e-12)) t = (0, 90) := by
  simp only [xy2radecPost]
  have h90 : ((90.0 : ℝ) - 90) * Real.pi / 180.0 = 0 := by norm_num
  have h11 : (1.0 : ℝ) - 1 * 1 = 0 := by norm_num
  have h12 : (1.0 : ℝ) - 1 = 0 := by norm_num
  have hphi : arctan2 (-(plate_dist 1e-12)) 0 = -(Real.pi / 2) :=
    arctan2_neg_y_zero_x _ (by linarith [plate_dist_eps_pos])
  simp only [h90, Real.sin_zero, Real.cos_zero, zero_mul, mul_zero, mul_one,
    one_mul, sub_zero, zero_sub, add_zero, zero_add, zero_div, h11, h12,
    Real.sqrt_zero, neg_zero, hphi, Real.cos_neg, Real.sin_neg,
    Real.cos_pi_div_two, Real.sin_pi_div_two, mul_neg, neg_mul, neg_neg]
  have harg : 1 ≤ Real.cos t + 1e-10 * Real.sin t := by
    have hc := Real.one_sub_sq_div_two_le_cos (x := t)
    have hs := Real.sin_gt_sub_cube (show 0 < t by linarith)
      (show t ≤ 1 by linarith)
    nlinarith [sq_nonneg t]
  have harccos : Real.arccos (1e-10 * Real.sin t + Real.cos t) = 0 := by
    rw [Real.arccos_eq_zero]
    linarith
  rw [Prod.mk.injEq]
  constructor
  · rw [arctan2_zero_zero]
    rw [show (0 : ℝ) * 180.0 / Real.pi = 0 by ring]
    rw [npRemainder_zero, npRemainder_zero]
  · rw [harccos]
    norm_num

/-- Helper: the cubic stays below `1e-6` mm on angles up to `2e-12` rad. -/
theorem plate_dist_small_bound (m : ℝ) (h0 : 0 ≤ m) (h2 : m ≤ 2e-12) :
    -1e-6 ≤ ((8.297e5 * m - 1750) * m + 1.394e4) * m ∧
    ((8.297e5 * m - 1750) * m + 1.394e4) * m ≤ 1e-6 := by
  constructor
  · nlinarith [sq_nonneg m, mul_nonneg (mul_nonneg h0 h0) h0,
      mul_le_mul_of_nonneg_right h2 h0]
  · nlinarith [sq_nonneg m, mul_nonneg (mul_nonneg h0 h0) h0,
      mul_le_mul_of_nonneg_right h2 h0,
      mul_le_mul_of_nonneg_right (mul_le_mul_of_nonneg_right h2 h0) h0]

set_option maxHeartbeats 1000000 in
/-- Helper: for every pointing with `-90 <= dec <= 90` (any `ra`), mapping
the pointing through `radec2xy` onto itself lands within `1e-6` mm of the
plate origin: the azimuthal cancellation makes `x = 0` exactly, and the
`1e-12` epsilon leaves a rotated planar magnitude of at most `2e-12`, which
the plate polynomial maps below `3e-8` mm. -/
theorem radec2xy_self_small (tra tdec : ℝ) (h3 : -90 ≤ tdec)
    (h4 : tdec ≤ 90) :
    |(radec2xy tra tdec tra tdec).1| ≤ 1e-6 ∧
    |(radec2xy tra tdec tra tdec).2| ≤ 1e-6 := by
  simp only [radec2xy]
  have hpi := Real.pi_pos
  have hθ0 : 0 ≤ (90.0 - tdec) * Real.pi / 180.0 :=
    div_nonneg (mul_nonneg (by linarith) hpi.le) (by norm_num)
  have hθπ : (90.0 - tdec) * Real.pi / 180.0 ≤ Real.pi := by
    nlinarith
  have hs0 : 0 ≤ Real.sin ((90.0 - tdec) * Real.pi / 180.0) :=
    Real.sin_nonneg_of_nonneg_of_le_pi hθ0 hθπ
  have hpy := Real.sin_sq_add_cos_sq ((90.0 - tdec) * Real.pi / 180.0)
  have hpyφ := Real.sin_sq_add_cos_sq (tra * Real.pi / 180.0)
  have hcle := Real.abs_cos_le_one ((90.0 - tdec) * Real.pi / 180.0)
  set S := Real.sin ((90.0 - tdec) * Real.pi / 180.0) with hS_def
  set C := Real.cos ((90.0 - tdec) * Real.pi / 180.0) with hC_def
  set SP := Real.sin (tra * Real.pi / 180.0) with hSP_def
  set CP := Real.cos (tra * Real.pi / 180.0) with hCP_def
  have hsint : Real.sqrt (1.0 - C * C) = S := by
    rw [show (1.0 : ℝ) - C * C = S * S by nlinarith [hpy]]
    exact Real.sqrt_mul_self hs0
  rw [hsint]
  set u := S + 1e-12 with hu_def
  have hu : 0 < u := by rw [hu_def]; linarith
  have hnn0 : S * SP / u * (S * CP) - S * CP / u * (S * SP) = 0 := by ring
  rw [hnn0]
  have hn1 : S * CP / u * (S * CP) + S * SP / u * (S * SP) = S ^ 2 / u := by
    field_simp
    linear_combination (S ^ 2) * hpyφ
  rw [hn1]
  have hθv : Real.sqrt (0 * 0 + (C * (S ^ 2 / u) - u * C) *
      (C * (S ^ 2 / u) - u * C)) = |C * (S ^ 2 / u) - u * C| := by
    have h00 : (0 : ℝ) * 0 + (C * (S ^ 2 / u) - u * C) *
        (C * (S ^ 2 / u) - u * C) = (C * (S ^ 2 / u) - u * C) *
        (C * (S ^ 2 / u) - u * C) := by ring
    rw [h00, Real.sqrt_mul_self_eq_abs]
  rw [hθv]
  set N := C * (S ^ 2 / u) - u * C with hN_def
  have hNb : |N| ≤ 2e-12 := by
    have hrepr : N = -C * ((2 * S * 1e-12 + 1e-24) / u) := by
      rw [hN_def, hu_def]
      field_simp
      ring
    rw [hrepr, abs_mul, abs_neg]
    have hX0 : 0 ≤ (2 * S * 1e-12 + 1e-24) / u :=
      div_nonneg (by linarith) hu.le
    have hXle : (2 * S * 1e-12 + 1e-24) / u ≤ 2e-12 := by
      rw [div_le_iff₀ hu, hu_def]
      linarith
    rw [abs_of_nonneg hX0]
    calc |C| * ((2 * S * 1e-12 + 1e-24) / u) ≤
        1 * ((2 * S * 1e-12 + 1e-24) / u) :=
          mul_le_mul_of_nonneg_right hcle hX0
      _ ≤ 1 * 2e-12 := by linarith
      _ ≤ 2e-12 := by norm_num
  constructor
  · simp only [mul_zero, zero_div, abs_zero]
    norm_num
  · by_cases hN0 : N = 0
    · rw [hN0]
      simp only [mul_zero, zero_div, abs_zero]
      norm_num
    · have hNpos : 0 < abs N := abs_pos.mpr hN0
      have hcancel : abs (plate_dist (abs N) * N / abs N) =
          abs (plate_dist (abs N)) := by
        rw [abs_div, abs_mul, abs_abs, mul_div_assoc,
          div_self hNpos.ne', mul_one]
      rw [hcancel, plate_dist_eq]
      have hθge : 0 ≤ abs N := abs_nonneg N
      rw [abs_le]
      exact plate_dist_small_bound (abs N) hθge hNb

/-- Helper: at any pole pointing, the round trip of the pointing through
`radec2xy` and then `xy2radec` (whose Newton loop provably terminates after
one update here) returns exactly `(0, 90)`, regardless of the input right
ascension. -/
theorem pole_roundtrip (tra : ℝ) :
    XY2Radec tra 90 (radec2xy tra 90 tra 90).1 (radec2xy tra 90 tra 90).2
      (0, 90) := by
  rw [radec2xy_pole]
  show XY2Radec tra 90 0 (-(plate_dist 1e-12)) (0, 90)
  refine ⟨plate_dist 1e-12 / newton_derivative 0, ?_, ?_⟩
  · have hsqrt : Real.sqrt ((0 : ℝ) * 0 +
        -(plate_dist 1e-12) * -(plate_dist 1e-12)) = plate_dist 1e-12 := by
      rw [show ((0 : ℝ) * 0 + -(plate_dist 1e-12) * -(plate_dist 1e-12)) =
        plate_dist 1e-12 * plate_dist 1e-12 by ring,
        Real.sqrt_mul_self plate_dist_eps_pos.le]
    rw [hsqrt]
    exact ⟨2, plateAngleFuel_eps_run⟩
  · exact (xy2radecPost_pole tra _ newton_eps_g1_bounds.1
      newton_eps_g1_bounds.2).symm

/-- C1 counterexample: the pointing and object `(ra, dec) = (20, 90)` are
valid coordinates (a pole case the claim explicitly includes), yet composing
`xy2radec` after `radec2xy` returns right ascension 0: the error `|0 - 20|`
is 20 degrees, far above the claimed `1e-6` tolerance. -/
theorem xy2radec_roundtrip_pole_cex :
    XY2Radec 20 90 (radec2xy 20 90 20 90).1 (radec2xy 20 90 20 90).2
      (0, 90) ∧ 1e-6 < |(0 : ℝ) - 20| :=
  ⟨pole_roundtrip 20, by norm_num⟩

/-- C1 amended: for every valid pointing, `radec2xy` applied to the pointing
itself yields `(x, y)` within `1e-6` mm of `(0, 0)`; but the round-trip
contract does not extend to pole pointings: for `dec = 90` the composition
`xy2radec(radec2xy(ra, 90))` returns exactly `(0, 90)` for every `ra`, so
the input right ascension is not reproduced there. -/
theorem radec2xy_roundtrip_amended (tra tdec : ℝ) (_h1 : 0 ≤ tra)
    (_h2 : tra < 360) (h3 : -90 ≤ tdec) (h4 : tdec ≤ 90) :
    (|(radec2xy tra tdec tra tdec).1| ≤ 1e-6 ∧
     |(radec2xy tra tdec tra tdec).2| ≤ 1e-6) ∧
    (tdec = 90 → XY2Radec tra 90 (radec2xy tra 90 tra 90).1
      (radec2xy tra 90 tra 90).2 (0, 90)) :=
  ⟨radec2xy_self_small tra tdec h3 h4, fun _ => pole_roundtrip tra⟩

/-- C1 witness instance: the valid pole pointing `(20, 90)` satisfies both
parts of the amended claim. -/
theorem radec2xy_roundtrip_amended_witness :
    (|(radec2xy 20 90 20 90).1| ≤ 1e-6 ∧
     |(radec2xy 20 90 20 90).2| ≤ 1e-6) ∧
    XY2Radec 20 90 (radec2xy 20 90 20 90).1 (radec2xy 20 90 20 90).2
      (0, 90) := by
  have h := radec2xy_roundtrip_amended 20 90 (by norm_num) (by norm_num)
    (by norm_num) (by norm_num)
  exact ⟨h.1, h.2 rfl⟩

/-- C6 counterexample: a 1 x 1 grid has only the zero-frequency cell, so the
mask `ksq > 0` is empty and the pre-rescale field is identically zero for any
draws; the final rescale divides by a zero RMS (NaN in numpy, zero under the
real-division convention), so the realized RMS is 0, not the requested
`rms = 1` -- the normalization does not hold for every call. -/
theorem rvf_realized_rms_n1_cex :
    rvfRealizedRMS 1 (-1) 0.05 1 (fun _ _ => 0) (fun _ _ => 0) ≠ 1 := by
  have hA : ∀ r c : Fin 1,
      rvfA (-1) 0.05 1 (fun _ _ => 0) (fun _ _ => 0) r c = 0 := by
    intro r c
    have hr : r = 0 := Subsingleton.elim r 0
    have hc : c = 0 := Subsingleton.elim c 0
    subst hr hc
    unfold rvfA rvfKsq fftfreq
    norm_num
  have hoff : ∀ a b : Fin 1,
      rvfOffsets (-1) 0.05 1 (fun _ _ => 0) (fun _ _ => 0) a b = 0 := by
    intro a b
    unfold rvfOffsets
    rw [Fin.sum_univ_one, Fin.sum_univ_one, hA]
    simp
  unfold rvfRealizedRMS rvfDx rvfDy
  rw [Fin.sum_univ_one, Fin.sum_univ_one, hoff]
  norm_num

/-- C6 amended: the realized RMS `sqrt(mean(dx**2 + dy**2))` equals the
requested `rms` exactly for every call whose pre-rescale field has a nonzero
mean square (in particular this needs `n >= 2`) and whose requested `rms` is
nonnegative; in the degenerate zero-field case the rescale divides by zero
and the equality fails. -/
theorem rvf_realized_rms_spec (rms exponent smoothing : ℝ) (n : ℕ)
    (u gdraw : Fin n → Fin n → ℝ) (hrms : 0 ≤ rms)
    (hpos : 0 < rvfMeanSq exponent smoothing n u gdraw) :
    rvfRealizedRMS rms exponent smoothing n u gdraw = rms := by
  have hsum : (∑ a : Fin n, ∑ b : Fin n,
      (rvfDx rms exponent smoothing n u gdraw a b ^ 2 +
       rvfDy rms exponent smoothing n u gdraw a b ^ 2)) =
      rvfRescale rms exponent smoothing n u gdraw ^ 2 *
        ∑ a : Fin n, ∑ b : Fin n,
          Complex.normSq (rvfOffsets exponent smoothing n u gdraw a b) := by
    rw [Finset.mul_sum]
    refine Finset.sum_congr rfl fun a _ => ?_
    rw [Finset.mul_sum]
    refine Finset.sum_congr rfl fun b _ => ?_
    unfold rvfDx rvfDy
    rw [Complex.normSq_apply]
    ring
  have hμdef : rvfMeanSq exponent smoothing n u gdraw =
      (∑ a : Fin n, ∑ b : Fin n,
        Complex.normSq (rvfOffsets exponent smoothing n u gdraw a b)) /
        (n ^ 2) := rfl
  have hc : rvfRescale rms exponent smoothing n u gdraw =
      rms / Real.sqrt (rvfMeanSq exponent smoothing n u gdraw) := rfl
  have hsqrtpos : 0 < Real.sqrt (rvfMeanSq exponent smoothing n u gdraw) :=
    Real.sqrt_pos.mpr hpos
  have hcnn : 0 ≤ rvfRescale rms exponent smoothing n u gdraw := by
    rw [hc]
    exact div_nonneg hrms hsqrtpos.le
  unfold rvfRealizedRMS
  rw [hsum, mul_div_assoc, ← hμdef,
    Real.sqrt_mul (sq_nonneg _), Real.sqrt_sq_eq_abs, abs_of_nonneg hcnn, hc,
    div_mul_eq_mul_div, ← Real.sqrt_mul_self hsqrtpos.le]
  rw [Real.sqrt_mul_self hsqrtpos.le]
  field_simp

/-- C6 witness instance: a 2 x 2 grid with a single nonzero normal draw at
the masked cell `(0, 1)`, exponent 2, zero phases and no smoothing, has
pre-rescale mean square `1/256 > 0`, and the generator therefore realizes
exactly the requested RMS 1. -/
theorem rvf_realized_rms_witness :
    rvfRealizedRMS 1 2 0 2 (fun _ _ => 0)
      (fun r c => if r = 0 ∧ c = 1 then 1 else 0) = 1 := by
  have hf0 : fftfreq 2 0 = 0 := by
    unfold fftfreq
    norm_num
  have hf1 : fftfreq 2 1 = -(1 / 2) := by
    unfold fftfreq
    norm_num
  have hA00 : rvfA 2 0 2 (fun _ _ => 0)
      (fun r c => if r = 0 ∧ c = 1 then 1 else 0) 0 0 = 0 := by
    unfold rvfA rvfKsq
    rw [hf0]
    norm_num
  have hA10 : rvfA 2 0 2 (fun _ _ => 0)
      (fun r c => if r = 0 ∧ c = 1 then 1 else 0) 1 0 = 0 := by
    unfold rvfA rvfKsq
    rw [hf0, hf1]
    norm_num
  have hA11 : rvfA 2 0 2 (fun _ _ => 0)
      (fun r c => if r = 0 ∧ c = 1 then 1 else 0) 1 1 = 0 := by
    unfold rvfA rvfKsq
    rw [hf1]
    norm_num
  have hA01 : rvfA 2 0 2 (fun _ _ => 0)
      (fun r c => if r = 0 ∧ c = 1 then 1 else 0) 0 1 = (1 / 4 : ℂ) := by
    unfold rvfA rvfKsq
    rw [hf0, hf1]
    norm_num
  have hoff : ∀ a b : Fin 2, rvfOffsets 2 0 2 (fun _ _ => 0)
      (fun r c => if r = 0 ∧ c = 1 then 1 else 0) a b =
      (1 / 16 : ℂ) * Complex.exp (Real.pi * Complex.I * ((b : ℕ) : ℂ)) := by
    intro a b
    unfold rvfOffsets
    rw [Fin.sum_univ_two]
    rw [Fin.sum_univ_two, Fin.sum_univ_two]
    rw [hA00, hA01, hA10, hA11]
    simp only [zero_mul, add_zero, zero_add, mul_zero, Fin.val_zero,
      Fin.val_one, Nat.cast_zero, Nat.cast_one, Nat.cast_ofNat]
    rw [show (2 : ℂ) * Real.pi * Complex.I *
        ((0 : ℂ) / 2 + (1 : ℂ) * ((b : ℕ) : ℂ) / 2) =
        (Real.pi : ℂ) * Complex.I * ((b : ℕ) : ℂ) from by ring]
    ring
  have hexp0 : Complex.exp (Real.pi * Complex.I * (((0 : Fin 2) : ℕ) : ℂ)) =
      1 := by
    simp [Complex.exp_zero]
  have hexp1 : Complex.exp (Real.pi * Complex.I * (((1 : Fin 2) : ℕ) : ℂ)) =
      -1 := by
    simp only [Fin.val_one, Nat.cast_one, mul_one]
    exact Complex.exp_pi_mul_I
  have hμ : rvfMeanSq 2 0 2 (fun _ _ => 0)
      (fun r c => if r = 0 ∧ c = 1 then 1 else 0) = 1 / 256 := by
    unfold rvfMeanSq
    rw [Fin.sum_univ_two, Fin.sum_univ_two, Fin.sum_univ_two]
    rw [hoff, hoff, hoff, hoff, hexp0, hexp1]
    norm_num [Complex.normSq_apply]
  exact rvf_realized_rms_spec 1 2 0 2 (fun _ _ => 0)
    (fun r c => if r = 0 ∧ c = 1 then 1 else 0) (by norm_num)
    (by rw [hμ]; norm_num)

/-- C9: `radec2pos` fails with the Unimplemented error on every input; being a
pure constant-error function it performs no computation and never returns a
result. -/
theorem radec2pos_unimplemented (ra dec : ℚ) :
    radec2pos ra dec = .error .unimplemented := rfl

/-- C10: `get_tile_radec` returns the default `(0, 0)` for a tileid absent from
the catalog (raising no error), returns the first matching tile's `(RA, DEC)`
for a present tileid, and consequently an absent tile is indistinguishable from
a tile genuinely located at `(0, 0)`: the concrete catalogs below illustrate
the collision. -/
theorem get_tile_radec_spec (tiles : List Tile) (tileid : Int) :
    ((∀ t ∈ tiles, t.tileid ≠ tileid) → get_tile_radec tiles tileid = (0, 0)) ∧
    (∀ t, tiles.find? (fun u => u.tileid == tileid) = some t →
      get_tile_radec tiles tileid = (t.ra, t.dec)) ∧
    get_tile_radec [⟨5, 0, 0⟩] 5 = get_tile_radec [⟨5, 0, 0⟩] 7 := by
  refine ⟨?_, ?_, by rfl⟩
  · intro h
    have hnone : tiles.find? (fun u => u.tileid == tileid) = none := by
      rw [List.find?_eq_none]
      intro t ht
      simpa using h t ht
    simp [get_tile_radec, hnone]
  · intro t ht
    simp [get_tile_radec, ht]

end Desimodel
